import Mathlib

/-!
# Verification of the mxnet `linalg.h` dispatch layer

This development embeds the data model and operation contracts of
`src/operator/linalg.h` (the unified tensor interface for BLAS3/LAPACK
functions) and proves the specified properties about them.

The header file declares the call surface: the flag-based `gemm` kernel,
the `TransposeTensor` marker with its `Transpose()` constructors, the four
marker-dispatch `linalg_gemm` overloads, `trsm`, `trmm`, `potrf`, `potri`,
and the batched variant of each.  The kernel bodies live in
`linalg_impl.h`, which is not part of the sources at hand, so the kernels
below are modelled from the specification's mathematical contracts; the
`TransposeTensor` wrapper and the declaration surface are embedded
directly from the header.

Matrices are embedded as Mathlib `Matrix (Fin m) (Fin n) R` values over a
commutative ring (a field where the contract divides), an exact-arithmetic
stand-in for the float/double element types; rank-3 (batched) operands are
functions `Fin N → Matrix _ _ R` with the outermost dimension the batch
index.
-/

open Matrix

/-! ## GEMM kernel

Modelled from the spec: the single flag-based BLAS3 `gemm` kernel computes
`C := alpha * op(A) * op(B) + beta * C` where `op(X)` is `X` or its
transpose according to the corresponding boolean flag.  The kernel body is
in `linalg_impl.h` (not in the sources); only its declaration
(`linalg.h` lines 57-60) is.  The flags are runtime booleans, so the
storage shape of `A` (resp. `B`) depends on the flag, as it does for the
BLAS call. -/
def linalg_gemm {R : Type} [CommRing R] {m k n : ℕ} (tA tB : Bool)
    (A : Matrix (Fin (cond tA k m)) (Fin (cond tA m k)) R)
    (B : Matrix (Fin (cond tB n k)) (Fin (cond tB k n)) R)
    (C : Matrix (Fin m) (Fin n) R) (alpha beta : R) :
    Matrix (Fin m) (Fin n) R :=
  match tA, tB, A, B with
  | false, false, A, B =>
      Matrix.of fun i j => alpha * (∑ l, A i l * B l j) + beta * C i j
  | true, false, A, B =>
      Matrix.of fun i j => alpha * (∑ l, A l i * B l j) + beta * C i j
  | false, true, A, B =>
      Matrix.of fun i j => alpha * (∑ l, A i l * B j l) + beta * C i j
  | true, true, A, B =>
      Matrix.of fun i j => alpha * (∑ l, A l i * B j l) + beta * C i j

/-! ## Write-mode (OpReqType)

Modelled from the spec: the write-mode convenience argument of the four
dispatch overloads; `kWriteTo` overwrites the result operand (beta 0),
`kAddTo` accumulates into it (beta 1). -/
inductive OpReqType : Type
  | kWriteTo : OpReqType
  | kAddTo : OpReqType
deriving DecidableEq

/-- Modelled from the spec: the beta coefficient derived from the
write-mode argument: 0 for overwrite, 1 for accumulate. -/
def betaOfReq {R : Type} [CommRing R] (req : OpReqType) : R :=
  match req with
  | .kWriteTo => 0
  | .kAddTo => 1

/-! ## The four marker-dispatch `linalg_gemm` overloads

Modelled from the spec: each of the four overloads (`linalg.h`
lines 88-112, bodies in `linalg_impl.h`) invokes the flag-based kernel
with transpose booleans matching the marking, alpha 1 and beta derived
from the write-mode argument. -/

/-- Modelled from the spec: overload for (A plain, B plain). -/
def linalg_gemm_nn {R : Type} [CommRing R] {m k n : ℕ}
    (A : Matrix (Fin m) (Fin k) R) (B : Matrix (Fin k) (Fin n) R)
    (C : Matrix (Fin m) (Fin n) R) (req : OpReqType) :
    Matrix (Fin m) (Fin n) R :=
  linalg_gemm false false A B C 1 (betaOfReq req)

/-- Modelled from the spec: overload for (A marked transposed, B plain). -/
def linalg_gemm_tn {R : Type} [CommRing R] {m k n : ℕ}
    (A : Matrix (Fin k) (Fin m) R) (B : Matrix (Fin k) (Fin n) R)
    (C : Matrix (Fin m) (Fin n) R) (req : OpReqType) :
    Matrix (Fin m) (Fin n) R :=
  linalg_gemm true false A B C 1 (betaOfReq req)

/-- Modelled from the spec: overload for (A plain, B marked transposed). -/
def linalg_gemm_nt {R : Type} [CommRing R] {m k n : ℕ}
    (A : Matrix (Fin m) (Fin k) R) (B : Matrix (Fin n) (Fin k) R)
    (C : Matrix (Fin m) (Fin n) R) (req : OpReqType) :
    Matrix (Fin m) (Fin n) R :=
  linalg_gemm false true A B C 1 (betaOfReq req)

/-- Modelled from the spec: overload for (A marked, B marked). -/
def linalg_gemm_tt {R : Type} [CommRing R] {m k n : ℕ}
    (A : Matrix (Fin k) (Fin m) R) (B : Matrix (Fin n) (Fin k) R)
    (C : Matrix (Fin m) (Fin n) R) (req : OpReqType) :
    Matrix (Fin m) (Fin n) R :=
  linalg_gemm true true A B C 1 (betaOfReq req)

/-! ## TransposeTensor and Transpose()

Embedded directly from `linalg.h` lines 69-86: the class wraps a tensor
to mark that it should be treated as transposed; `tensor()` returns the
wrapped operand.  The constructor stores the operand itself (a const
reference in the C++), so the wrapper carries no data of its own. -/

structure TransposeTensor (T : Type) : Type where
  self_ : T

/-- Accessor `tensor()` of the wrapper: returns the wrapped operand. -/
def TransposeTensor.tensor {T : Type} (x : TransposeTensor T) : T :=
  x.self_

/-- The `Transpose()` overload for rank-2 tensor arguments
(`linalg.h` lines 79-82). -/
def Transpose2 {R : Type} {m n : ℕ} (self : Matrix (Fin m) (Fin n) R) :
    TransposeTensor (Matrix (Fin m) (Fin n) R) :=
  TransposeTensor.mk self

/-- The `Transpose()` overload for rank-3 tensor arguments
(`linalg.h` lines 83-86); the outermost dimension is the batch index. -/
def Transpose3 {R : Type} {N m n : ℕ} (self : Fin N → Matrix (Fin m) (Fin n) R) :
    TransposeTensor (Fin N → Matrix (Fin m) (Fin n) R) :=
  TransposeTensor.mk self

/-! ## The declaration surface of `linalg.h`

A transcription of the function declarations of the header (which is the
code at hand), used to settle the interface-shape claim: which operation
families exist, which are batched, how many `TransposeTensor` parameters
each accepts, and how many explicit transpose-request boolean flags each
takes. -/

/-- The operation families declared in `linalg.h`. -/
inductive LinalgFam : Type
  | gemm : LinalgFam
  | trsm : LinalgFam
  | trmm : LinalgFam
  | potrf : LinalgFam
  | potri : LinalgFam
  | transposeFn : LinalgFam
deriving DecidableEq

/-- One declared function signature of `linalg.h`: its family, the rank
of its tensor operands (2 or 3, 3 meaning batched), the number of its
parameters of `TransposeTensor` type, and the number of its boolean
transpose-request flags. -/
structure LinalgDecl : Type where
  fam : LinalgFam
  operandRank : ℕ
  markerParams : ℕ
  transposeFlags : ℕ
deriving DecidableEq

/-- The full list of function declarations of `linalg.h`, in header
order: the flag-based gemm kernel (lines 57-60), batched gemm (62-65),
the two `Transpose()` overloads (79-86), the four marker-dispatch gemm
overloads (88-112), trsm and batched trsm (119-125), trmm and batched
trmm (133-139), potrf and batched potrf (147-151), potri and batched
potri (159-163). -/
def linalgDecls : List LinalgDecl :=
  [⟨.gemm, 2, 0, 2⟩,
   ⟨.gemm, 3, 0, 2⟩,
   ⟨.transposeFn, 2, 0, 0⟩,
   ⟨.transposeFn, 3, 0, 0⟩,
   ⟨.gemm, 2, 0, 0⟩,
   ⟨.gemm, 2, 1, 0⟩,
   ⟨.gemm, 2, 1, 0⟩,
   ⟨.gemm, 2, 2, 0⟩,
   ⟨.trsm, 2, 0, 1⟩,
   ⟨.trsm, 3, 0, 1⟩,
   ⟨.trmm, 2, 0, 1⟩,
   ⟨.trmm, 3, 0, 1⟩,
   ⟨.potrf, 2, 0, 0⟩,
   ⟨.potrf, 3, 0, 0⟩,
   ⟨.potri, 2, 0, 0⟩,
   ⟨.potri, 3, 0, 0⟩]

section TriangularOps

variable {F : Type} [Field F]

/-- Forward-substitution worker: after `k` steps it holds the solution
values of `L * x = b` at all indices below `k` and zero elsewhere. -/
def fsubAux {n : ℕ} (L : Matrix (Fin n) (Fin n) F) (b : Fin n → F) :
    ℕ → (Fin n → F)
  | 0 => fun _ => 0
  | k + 1 =>
    if hk : k < n then
      Function.update (fsubAux L b k) ⟨k, hk⟩
        ((b ⟨k, hk⟩ -
            ∑ j ∈ Finset.univ.filter (fun j => j < (⟨k, hk⟩ : Fin n)),
              L ⟨k, hk⟩ j * fsubAux L b k j) /
          L ⟨k, hk⟩ ⟨k, hk⟩)
    else fsubAux L b k

/-- Forward substitution: the solution of `L * x = b` for lower
triangular `L` with nonzero diagonal. -/
def fsub {n : ℕ} (L : Matrix (Fin n) (Fin n) F) (b : Fin n → F) :
    Fin n → F :=
  fsubAux L b n

/-- The matrix with both indices reversed; turns an upper triangular
matrix into a lower triangular one. -/
def revMat {n : ℕ} (M : Matrix (Fin n) (Fin n) F) :
    Matrix (Fin n) (Fin n) F :=
  Matrix.of fun i j => M i.rev j.rev

/-- Back substitution: the solution of `U * x = b` for upper triangular
`U` with nonzero diagonal, by forward substitution on the reversed
system. -/
def bsub {n : ℕ} (U : Matrix (Fin n) (Fin n) F) (b : Fin n → F) :
    Fin n → F :=
  fun i => fsub (revMat U) (fun j => b j.rev) i.rev

/-- Column-wise triangular solve of `M * X = C` for lower triangular `M`. -/
def trisolveColsLow {n m : ℕ} (M : Matrix (Fin n) (Fin n) F)
    (C : Matrix (Fin n) (Fin m) F) : Matrix (Fin n) (Fin m) F :=
  Matrix.of fun i c => fsub M (fun r => C r c) i

/-- Column-wise triangular solve of `M * X = C` for upper triangular `M`. -/
def trisolveColsUp {n m : ℕ} (M : Matrix (Fin n) (Fin n) F)
    (C : Matrix (Fin n) (Fin m) F) : Matrix (Fin n) (Fin m) F :=
  Matrix.of fun i c => bsub M (fun r => C r c) i

/-- Column-wise triangular solve, orientation selected by `low`. -/
def trisolveCols {n m : ℕ} (low : Bool) (M : Matrix (Fin n) (Fin n) F)
    (C : Matrix (Fin n) (Fin m) F) : Matrix (Fin n) (Fin m) F :=
  match low with
  | true => trisolveColsLow M C
  | false => trisolveColsUp M C

/-- The lower triangle of `A` (the part the kernel references when the
`lower` flag is set). -/
def lowTri {n : ℕ} (A : Matrix (Fin n) (Fin n) F) :
    Matrix (Fin n) (Fin n) F :=
  Matrix.of fun i j => if j ≤ i then A i j else 0

/-- The upper triangle of `A`. -/
def upTri {n : ℕ} (A : Matrix (Fin n) (Fin n) F) :
    Matrix (Fin n) (Fin n) F :=
  Matrix.of fun i j => if i ≤ j then A i j else 0

/-- The triangle of `A` selected by the `lower` flag. -/
def triOf {n : ℕ} (lower : Bool) (A : Matrix (Fin n) (Fin n) F) :
    Matrix (Fin n) (Fin n) F :=
  match lower with
  | true => lowTri A
  | false => upTri A

/-- `op(M)` for a square operand: `M` or its transpose, per the
transpose-request flag. -/
def opT {n : ℕ} (transpose : Bool) (M : Matrix (Fin n) (Fin n) F) :
    Matrix (Fin n) (Fin n) F :=
  match transpose with
  | true => Mᵀ
  | false => M

/-- Modelled from the spec: `linalg_trsm` with `rightside` false solves
`op(A) * X = alpha * B` and overwrites `B` with the solution `X`; only
the triangle of `A` selected by `lower` is read. -/
def linalg_trsm {n m : ℕ} (A : Matrix (Fin n) (Fin n) F)
    (B : Matrix (Fin n) (Fin m) F) (alpha : F) (lower transpose : Bool) :
    Matrix (Fin n) (Fin m) F :=
  trisolveCols (Bool.xor lower transpose) (opT transpose (triOf lower A))
    (alpha • B)

/-- Modelled from the spec: `linalg_trsm` with `rightside` true solves
`X * op(A) = alpha * B`, via the transposed left-side system. -/
def linalg_trsm_rightside {n m : ℕ} (A : Matrix (Fin n) (Fin n) F)
    (B : Matrix (Fin m) (Fin n) F) (alpha : F) (lower transpose : Bool) :
    Matrix (Fin m) (Fin n) F :=
  (trisolveCols (!(Bool.xor lower transpose))
    (opT transpose (triOf lower A))ᵀ (alpha • Bᵀ))ᵀ

/-- Modelled from the spec: `linalg_trmm` with `rightside` false
overwrites `B` with `alpha * op(A) * B` for triangular `A`; only the
selected triangle of `A` is read. -/
def linalg_trmm {n m : ℕ} (A : Matrix (Fin n) (Fin n) F)
    (B : Matrix (Fin n) (Fin m) F) (alpha : F) (lower transpose : Bool) :
    Matrix (Fin n) (Fin m) F :=
  alpha • (opT transpose (triOf lower A) * B)

/-- Modelled from the spec: `linalg_trmm` with `rightside` true
overwrites `B` with `alpha * B * op(A)`. -/
def linalg_trmm_rightside {n m : ℕ} (A : Matrix (Fin n) (Fin n) F)
    (B : Matrix (Fin m) (Fin n) F) (alpha : F) (lower transpose : Bool) :
    Matrix (Fin m) (Fin n) F :=
  alpha • (B * opT transpose (triOf lower A))

end TriangularOps

section Chol

variable {ι : Type} [LinearOrder ι] [WellFoundedLT ι] [LocallyFiniteOrderBot ι]
variable {S : Matrix ι ι ℝ} [Fintype ι]

noncomputable def cholFactor (hS : S.PosDef) : Matrix ι ι ℝ :=
  LDL.lower hS * Matrix.diagonal fun i => Real.sqrt (LDL.diagEntries hS i)

end Chol

/-- The Cholesky factor specialised to matrices indexed by `Fin n`. -/
noncomputable def cholFactorF {n : ℕ} {S : Matrix (Fin n) (Fin n) ℝ}
    (hS : S.PosDef) : Matrix (Fin n) (Fin n) ℝ :=
  @cholFactor (Fin n) (inferInstanceAs (LinearOrder (Fin n)))
    (inferInstanceAs (WellFoundedLT (Fin n)))
    (inferInstanceAs (LocallyFiniteOrderBot (Fin n))) S
    (inferInstanceAs (Fintype (Fin n))) hS

noncomputable def linalg_potrf {n : ℕ} (S : Matrix (Fin n) (Fin n) ℝ)
    (hS : S.PosDef) (lower : Bool) : Matrix (Fin n) (Fin n) ℝ :=
  match lower with
  | true => cholFactorF hS
  | false => (cholFactorF hS)ᵀ

noncomputable def linalg_potri {n : ℕ} (M : Matrix (Fin n) (Fin n) ℝ)
    (lower : Bool) : Matrix (Fin n) (Fin n) ℝ :=
  match lower with
  | true => (M * Mᵀ)⁻¹
  | false => (Mᵀ * M)⁻¹

open scoped Classical in
noncomputable def linalg_potrf_checked {n : ℕ} (S : Matrix (Fin n) (Fin n) ℝ)
    (lower : Bool) : Option (Matrix (Fin n) (Fin n) ℝ) :=
  if h : S.PosDef then some (linalg_potrf S h lower) else none

noncomputable def linalg_batch_potrf_checked {N n : ℕ}
    (A : Fin N → Matrix (Fin n) (Fin n) ℝ) (lower : Bool) :
    Fin N → Option (Matrix (Fin n) (Fin n) ℝ) :=
  fun i => linalg_potrf_checked (A i) lower

/-! ## Batched variants

Modelled from the spec: each batched operation works on tensors with one
more dimension than its non-batched counterpart, the outermost dimension
iterating over the elements of the batch, with the per-matrix contract
applied independently to each slice. -/

/-- Modelled from the spec: batched gemm over the outermost dimension. -/
def linalg_batch_gemm {R : Type} [CommRing R] {N m k n : ℕ} (tA tB : Bool)
    (A : Fin N → Matrix (Fin (cond tA k m)) (Fin (cond tA m k)) R)
    (B : Fin N → Matrix (Fin (cond tB n k)) (Fin (cond tB k n)) R)
    (C : Fin N → Matrix (Fin m) (Fin n) R) (alpha beta : R) :
    Fin N → Matrix (Fin m) (Fin n) R :=
  fun i => linalg_gemm tA tB (A i) (B i) (C i) alpha beta

/-- Modelled from the spec: batched triangular solve (left side). -/
def linalg_batch_trsm {F : Type} [Field F] {N n m : ℕ}
    (A : Fin N → Matrix (Fin n) (Fin n) F)
    (B : Fin N → Matrix (Fin n) (Fin m) F) (alpha : F)
    (lower transpose : Bool) : Fin N → Matrix (Fin n) (Fin m) F :=
  fun i => linalg_trsm (A i) (B i) alpha lower transpose

/-- Modelled from the spec: batched triangular solve (right side). -/
def linalg_batch_trsm_rightside {F : Type} [Field F] {N n m : ℕ}
    (A : Fin N → Matrix (Fin n) (Fin n) F)
    (B : Fin N → Matrix (Fin m) (Fin n) F) (alpha : F)
    (lower transpose : Bool) : Fin N → Matrix (Fin m) (Fin n) F :=
  fun i => linalg_trsm_rightside (A i) (B i) alpha lower transpose

/-- Modelled from the spec: batched triangular multiply (left side). -/
def linalg_batch_trmm {F : Type} [Field F] {N n m : ℕ}
    (A : Fin N → Matrix (Fin n) (Fin n) F)
    (B : Fin N → Matrix (Fin n) (Fin m) F) (alpha : F)
    (lower transpose : Bool) : Fin N → Matrix (Fin n) (Fin m) F :=
  fun i => linalg_trmm (A i) (B i) alpha lower transpose

/-- Modelled from the spec: batched triangular multiply (right side). -/
def linalg_batch_trmm_rightside {F : Type} [Field F] {N n m : ℕ}
    (A : Fin N → Matrix (Fin n) (Fin n) F)
    (B : Fin N → Matrix (Fin m) (Fin n) F) (alpha : F)
    (lower transpose : Bool) : Fin N → Matrix (Fin m) (Fin n) F :=
  fun i => linalg_trmm_rightside (A i) (B i) alpha lower transpose

/-- Modelled from the spec: batched Cholesky inverse. -/
noncomputable def linalg_batch_potri {N n : ℕ}
    (A : Fin N → Matrix (Fin n) (Fin n) ℝ) (lower : Bool) :
    Fin N → Matrix (Fin n) (Fin n) ℝ :=
  fun i => linalg_potri (A i) lower

/-! ## Theorems -/

/-! ## C1: the gemm kernel computes `alpha * op(A) * op(B) + beta * C` -/

theorem linalg_gemm_ff {R : Type} [CommRing R] {m k n : ℕ}
    (A : Matrix (Fin m) (Fin k) R) (B : Matrix (Fin k) (Fin n) R)
    (C : Matrix (Fin m) (Fin n) R) (alpha beta : R) :
    linalg_gemm false false A B C alpha beta = alpha • (A * B) + beta • C := by
  ext i j
  simp [linalg_gemm, Matrix.mul_apply]

theorem linalg_gemm_tf {R : Type} [CommRing R] {m k n : ℕ}
    (A : Matrix (Fin k) (Fin m) R) (B : Matrix (Fin k) (Fin n) R)
    (C : Matrix (Fin m) (Fin n) R) (alpha beta : R) :
    linalg_gemm true false A B C alpha beta = alpha • (Aᵀ * B) + beta • C := by
  ext i j
  simp [linalg_gemm, Matrix.mul_apply, Matrix.transpose_apply]

theorem linalg_gemm_ft {R : Type} [CommRing R] {m k n : ℕ}
    (A : Matrix (Fin m) (Fin k) R) (B : Matrix (Fin n) (Fin k) R)
    (C : Matrix (Fin m) (Fin n) R) (alpha beta : R) :
    linalg_gemm false true A B C alpha beta = alpha • (A * Bᵀ) + beta • C := by
  ext i j
  simp [linalg_gemm, Matrix.mul_apply, Matrix.transpose_apply]

theorem linalg_gemm_tt_eq {R : Type} [CommRing R] {m k n : ℕ}
    (A : Matrix (Fin k) (Fin m) R) (B : Matrix (Fin n) (Fin k) R)
    (C : Matrix (Fin m) (Fin n) R) (alpha beta : R) :
    linalg_gemm true true A B C alpha beta = alpha • (Aᵀ * Bᵀ) + beta • C := by
  ext i j
  simp [linalg_gemm, Matrix.mul_apply, Matrix.transpose_apply]

/-- C1: for all shape-compatible rank-2 operands and scalars, the gemm
kernel overwrites C with `alpha * op(A) * op(B) + beta * C`, where `op`
transposes an operand exactly when its boolean flag is set; in particular,
with alpha 1, beta 0 and both flags false the result is the mathematical
product `A * B`. -/
theorem linalg_gemm_spec {R : Type} [CommRing R] {m k n : ℕ}
    (A : Matrix (Fin m) (Fin k) R) (B : Matrix (Fin k) (Fin n) R)
    (A' : Matrix (Fin k) (Fin m) R) (B' : Matrix (Fin n) (Fin k) R)
    (C : Matrix (Fin m) (Fin n) R) (alpha beta : R) :
    linalg_gemm false false A B C alpha beta = alpha • (A * B) + beta • C ∧
    linalg_gemm true false A' B C alpha beta = alpha • (A'ᵀ * B) + beta • C ∧
    linalg_gemm false true A B' C alpha beta = alpha • (A * B'ᵀ) + beta • C ∧
    linalg_gemm true true A' B' C alpha beta = alpha • (A'ᵀ * B'ᵀ) + beta • C ∧
    linalg_gemm false false A B C 1 0 = A * B := by
  refine ⟨linalg_gemm_ff A B C alpha beta, linalg_gemm_tf A' B C alpha beta,
    linalg_gemm_ft A B' C alpha beta, linalg_gemm_tt_eq A' B' C alpha beta, ?_⟩
  rw [linalg_gemm_ff]
  simp

/-! ## C2: marker overloads versus explicitly materialized transposes -/

/-- C2: calling a marker-based `linalg_gemm` overload produces the same
contents of C as explicitly materializing the transposed data of the
marked operand(s) and calling the plain (unmarked) overload. -/
theorem linalg_gemm_marker_eq_materialized {R : Type} [CommRing R] {m k n : ℕ}
    (A : Matrix (Fin k) (Fin m) R) (B : Matrix (Fin k) (Fin n) R)
    (A₂ : Matrix (Fin m) (Fin k) R) (B₂ : Matrix (Fin n) (Fin k) R)
    (C : Matrix (Fin m) (Fin n) R) (req : OpReqType) :
    linalg_gemm_tn A B C req = linalg_gemm_nn Aᵀ B C req ∧
    linalg_gemm_nt A₂ B₂ C req = linalg_gemm_nn A₂ B₂ᵀ C req ∧
    linalg_gemm_tt A B₂ C req = linalg_gemm_nn Aᵀ B₂ᵀ C req := by
  refine ⟨?_, ?_, ?_⟩ <;>
    · ext i j
      simp [linalg_gemm_tn, linalg_gemm_nn, linalg_gemm_nt, linalg_gemm_tt,
        linalg_gemm, Matrix.transpose_apply]

/-! ## C4: overload-to-kernel mapping and write-mode semantics -/

/-- C4: each of the four marker-dispatch overloads invokes the flag-based
kernel with transpose booleans matching the marking, alpha 1 and beta
derived from the write-mode: with overwrite the incoming contents of C are
ignored entirely (result is `op(A) * op(B)` for any C), with accumulate
the product is added into C's existing contents. -/
theorem linalg_gemm_overload_spec {R : Type} [CommRing R] {m k n : ℕ}
    (A : Matrix (Fin m) (Fin k) R) (B : Matrix (Fin k) (Fin n) R)
    (A' : Matrix (Fin k) (Fin m) R) (B' : Matrix (Fin n) (Fin k) R)
    (C : Matrix (Fin m) (Fin n) R) (req : OpReqType) :
    linalg_gemm_nn A B C req = linalg_gemm false false A B C 1 (betaOfReq req) ∧
    linalg_gemm_tn A' B C req = linalg_gemm true false A' B C 1 (betaOfReq req) ∧
    linalg_gemm_nt A B' C req = linalg_gemm false true A B' C 1 (betaOfReq req) ∧
    linalg_gemm_tt A' B' C req = linalg_gemm true true A' B' C 1 (betaOfReq req) ∧
    linalg_gemm_nn A B C .kWriteTo = A * B ∧
    linalg_gemm_nn A B C .kAddTo = A * B + C ∧
    linalg_gemm_tn A' B C .kWriteTo = A'ᵀ * B ∧
    linalg_gemm_tn A' B C .kAddTo = A'ᵀ * B + C ∧
    linalg_gemm_nt A B' C .kWriteTo = A * B'ᵀ ∧
    linalg_gemm_nt A B' C .kAddTo = A * B'ᵀ + C ∧
    linalg_gemm_tt A' B' C .kWriteTo = A'ᵀ * B'ᵀ ∧
    linalg_gemm_tt A' B' C .kAddTo = A'ᵀ * B'ᵀ + C := by
  refine ⟨rfl, rfl, rfl, rfl, ?_, ?_, ?_, ?_, ?_, ?_, ?_, ?_⟩ <;>
    · first
      | (rw [linalg_gemm_nn, linalg_gemm_ff]; simp [betaOfReq])
      | (rw [linalg_gemm_tn, linalg_gemm_tf]; simp [betaOfReq])
      | (rw [linalg_gemm_nt, linalg_gemm_ft]; simp [betaOfReq])
      | (rw [linalg_gemm_tt, linalg_gemm_tt_eq]; simp [betaOfReq])

/-- C9: for every tensor view, constructing the transpose marker and
reading the wrapped view back via `tensor()` yields the original operand
itself, unchanged, for both the rank-2 and the rank-3 overload; the
wrapper holds nothing but the operand, so construction copies or mutates
no data. -/
theorem transpose_marker_zero_copy {R : Type} {N m n : ℕ}
    (A : Matrix (Fin m) (Fin n) R) (T : Fin N → Matrix (Fin m) (Fin n) R) :
    (Transpose2 A).tensor = A ∧
    (Transpose3 T).tensor = T ∧
    Transpose2 A = TransposeTensor.mk A ∧
    Transpose3 T = TransposeTensor.mk T :=
  ⟨rfl, rfl, rfl, rfl⟩

/-- C10: although `Transpose()` is declared for rank-3 operands as well
as rank-2 ones, no batched (rank-3) operation accepts a
`TransposeTensor` argument: every declaration with a marker parameter is
a non-batched rank-2 gemm overload, every trsm/trmm declaration in any
form has none, and for the batched gemm/trsm/trmm declarations
transposition is requestable only through explicit boolean flags. -/
theorem marker_dispatch_only_rank2_gemm :
    (∀ d ∈ linalgDecls, 0 < d.markerParams →
      d.fam = LinalgFam.gemm ∧ d.operandRank = 2) ∧
    (∀ d ∈ linalgDecls, d.operandRank = 3 → d.markerParams = 0) ∧
    (∀ d ∈ linalgDecls, (d.fam = LinalgFam.trsm ∨ d.fam = LinalgFam.trmm) →
      d.markerParams = 0) ∧
    (∀ d ∈ linalgDecls, d.operandRank = 3 →
      (d.fam = LinalgFam.gemm ∨ d.fam = LinalgFam.trsm ∨
        d.fam = LinalgFam.trmm) → 0 < d.transposeFlags) ∧
    (LinalgDecl.mk .transposeFn 2 0 0 ∈ linalgDecls) ∧
    (LinalgDecl.mk .transposeFn 3 0 0 ∈ linalgDecls) := by
  refine ⟨?_, ?_, ?_, ?_, ?_, ?_⟩ <;> decide

section TriangularOps2

variable {F : Type} [Field F]

theorem fsubAux_stable {n : ℕ} (L : Matrix (Fin n) (Fin n) F)
    (b : Fin n → F) {k k' : ℕ} (h : k ≤ k') (i : Fin n) (hi : i.1 < k) :
    fsubAux L b k' i = fsubAux L b k i := by
  induction k' with
  | zero => exact absurd (Nat.lt_of_lt_of_le hi h) (Nat.not_lt_zero _)
  | succ k' ih =>
    rcases Nat.eq_or_lt_of_le h with he | hlt
    · rw [he]
    · have h' : k ≤ k' := Nat.lt_succ_iff.mp hlt
      have hik : i.1 ≠ k' := Nat.ne_of_lt (Nat.lt_of_lt_of_le hi h')
      rw [fsubAux]
      by_cases hk : k' < n
      · rw [dif_pos hk, Function.update_noteq (fun hc => hik (by
          simpa using congrArg Fin.val hc))]
        exact ih h'
      · rw [dif_neg hk]
        exact ih h'

theorem fsub_spec {n : ℕ} (L : Matrix (Fin n) (Fin n) F) (b : Fin n → F)
    (i : Fin n) :
    fsub L b i =
      (b i - ∑ j ∈ Finset.univ.filter (fun j => j < i), L i j * fsub L b j) /
        L i i := by
  obtain ⟨iv, hiv⟩ := i
  have h1 : fsub L b ⟨iv, hiv⟩ = fsubAux L b (iv + 1) ⟨iv, hiv⟩ :=
    fsubAux_stable L b hiv ⟨iv, hiv⟩ (Nat.lt_succ_self iv)
  rw [fsub] at *
  rw [h1, fsubAux, dif_pos hiv, Function.update_same]
  congr 2
  refine Finset.sum_congr rfl fun j hj => ?_
  have hji : j.1 < iv := by
    simpa [Fin.lt_def] using Finset.mem_filter.mp hj |>.2
  rw [fsubAux_stable L b (Nat.le_of_lt hiv) j hji]

theorem fsub_mulVec {n : ℕ} (L : Matrix (Fin n) (Fin n) F) (b : Fin n → F)
    (hlow : ∀ i j : Fin n, i < j → L i j = 0) (hdiag : ∀ i, L i i ≠ 0) :
    L.mulVec (fsub L b) = b := by
  funext i
  have hsplit :
      ∑ j, L i j * fsub L b j =
        (∑ j ∈ Finset.univ.filter (fun j => j < i), L i j * fsub L b j) +
          ∑ j ∈ Finset.univ.filter (fun j => ¬ j < i), L i j * fsub L b j :=
    (Finset.sum_filter_add_sum_filter_not _ _ _).symm
  have hsecond :
      ∑ j ∈ Finset.univ.filter (fun j => ¬ j < i), L i j * fsub L b j =
        L i i * fsub L b i := by
    refine Finset.sum_eq_single_of_mem i (by simp) fun j hj hji => ?_
    have hij : i < j :=
      lt_of_le_of_ne (not_lt.mp (Finset.mem_filter.mp hj).2) (Ne.symm hji)
    rw [hlow i j hij, zero_mul]
  have hval : L i i * fsub L b i =
      b i - ∑ j ∈ Finset.univ.filter (fun j => j < i), L i j * fsub L b j := by
    rw [fsub_spec L b i, mul_comm, div_mul_cancel₀ _ (hdiag i)]
  show ∑ j, L i j * fsub L b j = b i
  rw [hsplit, hsecond, hval]
  ring

theorem bsub_mulVec {n : ℕ} (U : Matrix (Fin n) (Fin n) F) (b : Fin n → F)
    (hup : ∀ i j : Fin n, j < i → U i j = 0) (hdiag : ∀ i, U i i ≠ 0) :
    U.mulVec (bsub U b) = b := by
  have hlow : ∀ i j : Fin n, i < j → revMat U i j = 0 := by
    intro i j h
    exact hup i.rev j.rev (by simpa [Fin.rev_lt_rev] using h)
  have hd : ∀ i : Fin n, revMat U i i ≠ 0 := fun i => hdiag i.rev
  have hmain := fsub_mulVec (revMat U) (fun j => b j.rev) hlow hd
  funext i
  have h2 := congrFun hmain i.rev
  show ∑ j, U i j * bsub U b j = b i
  have hre :
      ∑ j, revMat U i.rev j * fsub (revMat U) (fun j => b j.rev) j =
        ∑ j, U i j * bsub U b j := by
    refine Fintype.sum_equiv Fin.revPerm _ _ fun x => ?_
    simp [revMat, bsub, Fin.rev_rev]
  rw [← hre]
  have h2' : ∑ j, revMat U i.rev j * fsub (revMat U) (fun j => b j.rev) j =
      b i.rev.rev := h2
  rw [h2', Fin.rev_rev]

theorem trisolveColsLow_correct {n m : ℕ} (M : Matrix (Fin n) (Fin n) F)
    (C : Matrix (Fin n) (Fin m) F)
    (hlow : ∀ i j : Fin n, i < j → M i j = 0) (hdiag : ∀ i, M i i ≠ 0) :
    M * trisolveColsLow M C = C := by
  ext i c
  have h := congrFun (fsub_mulVec M (fun r => C r c) hlow hdiag) i
  simpa [Matrix.mul_apply, Matrix.mulVec, Matrix.dotProduct,
    trisolveColsLow] using h

theorem trisolveColsUp_correct {n m : ℕ} (M : Matrix (Fin n) (Fin n) F)
    (C : Matrix (Fin n) (Fin m) F)
    (hup : ∀ i j : Fin n, j < i → M i j = 0) (hdiag : ∀ i, M i i ≠ 0) :
    M * trisolveColsUp M C = C := by
  ext i c
  have h := congrFun (bsub_mulVec M (fun r => C r c) hup hdiag) i
  simpa [Matrix.mul_apply, Matrix.mulVec, Matrix.dotProduct,
    trisolveColsUp] using h

theorem trisolveCols_correct {n m : ℕ} (low : Bool)
    (M : Matrix (Fin n) (Fin n) F) (C : Matrix (Fin n) (Fin m) F)
    (htri : if low then ∀ i j : Fin n, i < j → M i j = 0
            else ∀ i j : Fin n, j < i → M i j = 0)
    (hdiag : ∀ i, M i i ≠ 0) :
    M * trisolveCols low M C = C := by
  cases low with
  | true => exact trisolveColsLow_correct M C htri hdiag
  | false => exact trisolveColsUp_correct M C htri hdiag

theorem lowTri_eq_of_lower {n : ℕ} (A : Matrix (Fin n) (Fin n) F)
    (h : ∀ i j : Fin n, i < j → A i j = 0) : lowTri A = A := by
  ext i j
  by_cases hji : j ≤ i
  · simp [lowTri, hji]
  · simp [lowTri, hji, h i j (not_le.mp hji)]

theorem upTri_eq_of_upper {n : ℕ} (A : Matrix (Fin n) (Fin n) F)
    (h : ∀ i j : Fin n, j < i → A i j = 0) : upTri A = A := by
  ext i j
  by_cases hij : i ≤ j
  · simp [upTri, hij]
  · simp [upTri, hij, h i j (not_le.mp hij)]

theorem opT_triOf_orient {n : ℕ} (lower transpose : Bool)
    (A : Matrix (Fin n) (Fin n) F) :
    if Bool.xor lower transpose
    then ∀ i j : Fin n, i < j → opT transpose (triOf lower A) i j = 0
    else ∀ i j : Fin n, j < i → opT transpose (triOf lower A) i j = 0 := by
  cases lower <;> cases transpose <;>
    · intro i j hij
      show (if _ ≤ _ then A _ _ else 0) = 0
      rw [if_neg (not_le.mpr hij)]

theorem opT_triOf_diag {n : ℕ} (lower transpose : Bool)
    (A : Matrix (Fin n) (Fin n) F) (i : Fin n) :
    opT transpose (triOf lower A) i i = A i i := by
  cases lower <;> cases transpose <;>
    · show (if _ ≤ _ then A i i else 0) = A i i
      rw [if_pos (le_refl i)]

theorem opT_triOf_orient_transpose {n : ℕ} (lower transpose : Bool)
    (A : Matrix (Fin n) (Fin n) F) :
    if !(Bool.xor lower transpose)
    then ∀ i j : Fin n, i < j → (opT transpose (triOf lower A))ᵀ i j = 0
    else ∀ i j : Fin n, j < i → (opT transpose (triOf lower A))ᵀ i j = 0 := by
  cases lower <;> cases transpose <;>
    · intro i j hij
      show (if _ ≤ _ then A _ _ else 0) = 0
      rw [if_neg (not_le.mpr hij)]

theorem opT_triOf_det_ne_zero {n : ℕ} (lower transpose : Bool)
    (A : Matrix (Fin n) (Fin n) F) (hdiag : ∀ i, A i i ≠ 0) :
    (opT transpose (triOf lower A)).det ≠ 0 := by
  have ho := opT_triOf_orient lower transpose A
  have hdet : (opT transpose (triOf lower A)).det =
      ∏ i, opT transpose (triOf lower A) i i := by
    cases hx : Bool.xor lower transpose
    · rw [hx] at ho
      exact Matrix.det_of_upperTriangular fun i j h => ho i j h
    · rw [hx] at ho
      exact Matrix.det_of_lowerTriangular _ fun i j h => ho i j h
  rw [hdet]
  refine Finset.prod_ne_zero_iff.mpr fun i _ => ?_
  rw [opT_triOf_diag]
  exact hdiag i

theorem mul_left_cancel_of_det_ne_zero {n m : ℕ}
    {M : Matrix (Fin n) (Fin n) F} (hdet : M.det ≠ 0)
    {Y Z : Matrix (Fin n) (Fin m) F} (h : M * Y = M * Z) : Y = Z := by
  have h2 := congrArg (fun W => M⁻¹ * W) h
  simpa [← Matrix.mul_assoc, Matrix.nonsing_inv_mul M (isUnit_iff_ne_zero.mpr hdet)]
    using h2

end TriangularOps2

/-- C5: for every triangular non-singular square `A` (upper or lower per
the flag) and compatible `B`, `linalg_trsm` overwrites `B` with the
solution `X` of `op(A) * X = alpha * B_old` (or `X * op(A) =
alpha * B_old` in the rightside form): multiplying the post-call `B` by
`op(A)` on the selected side yields alpha times the pre-call `B`. -/
theorem linalg_trsm_solves {F : Type} [Field F] {n m p : ℕ}
    (A : Matrix (Fin n) (Fin n) F) (B : Matrix (Fin n) (Fin m) F)
    (B₂ : Matrix (Fin p) (Fin n) F) (alpha : F) (lower transpose : Bool)
    (htri : if lower then ∀ i j : Fin n, i < j → A i j = 0
            else ∀ i j : Fin n, j < i → A i j = 0)
    (hdiag : ∀ i, A i i ≠ 0) :
    opT transpose A * linalg_trsm A B alpha lower transpose = alpha • B ∧
    linalg_trsm_rightside A B₂ alpha lower transpose * opT transpose A =
      alpha • B₂ := by
  have hT : triOf lower A = A := by
    cases lower with
    | false => exact upTri_eq_of_upper A htri
    | true => exact lowTri_eq_of_lower A htri
  have ho := opT_triOf_orient lower transpose A
  have hd : ∀ i, opT transpose (triOf lower A) i i ≠ 0 := by
    intro i
    rw [opT_triOf_diag]
    exact hdiag i
  constructor
  · have h1 := trisolveCols_correct (Bool.xor lower transpose)
      (opT transpose (triOf lower A)) (alpha • B) ho hd
    rw [hT] at h1
    rw [linalg_trsm, hT]
    exact h1
  · have hoT := opT_triOf_orient_transpose lower transpose A
    have hdT : ∀ i, (opT transpose (triOf lower A))ᵀ i i ≠ 0 := fun i => hd i
    have h2 := trisolveCols_correct (!(Bool.xor lower transpose))
      (opT transpose (triOf lower A))ᵀ (alpha • B₂ᵀ) hoT hdT
    have h3 := congrArg Matrix.transpose h2
    rw [Matrix.transpose_mul, Matrix.transpose_transpose, Matrix.transpose_smul,
      Matrix.transpose_transpose] at h3
    rw [linalg_trsm_rightside, hT]
    rw [hT] at h3
    exact h3

theorem linalg_trsm_solves_witness :
    ((∀ i j : Fin 2, i < j → (!![(1:ℚ), 0; 2, 3]) i j = 0) ∧
      (∀ i : Fin 2, (!![(1:ℚ), 0; 2, 3]) i i ≠ 0)) ∧
    (opT false !![(1:ℚ), 0; 2, 3] *
        linalg_trsm !![(1:ℚ), 0; 2, 3] !![(5:ℚ); 7] 2 true false =
        (2:ℚ) • !![(5:ℚ); 7] ∧
      linalg_trsm_rightside !![(1:ℚ), 0; 2, 3] !![(5:ℚ), 7] 2 true false *
          opT false !![(1:ℚ), 0; 2, 3] = (2:ℚ) • !![(5:ℚ), 7]) :=
  ⟨⟨by decide, by decide⟩,
    linalg_trsm_solves !![(1:ℚ), 0; 2, 3] !![(5:ℚ); 7] !![(5:ℚ), 7] 2
      true false (by decide) (by decide)⟩

theorem mul_right_cancel_of_det_ne_zero {F : Type} [Field F] {n m : ℕ}
    {M : Matrix (Fin n) (Fin n) F} (hdet : M.det ≠ 0)
    {Y Z : Matrix (Fin m) (Fin n) F} (h : Y * M = Z * M) : Y = Z := by
  have h2 := congrArg Matrix.transpose h
  rw [Matrix.transpose_mul, Matrix.transpose_mul] at h2
  have h3 := mul_left_cancel_of_det_ne_zero (by rwa [Matrix.det_transpose]) h2
  have h4 := congrArg Matrix.transpose h3
  rwa [Matrix.transpose_transpose, Matrix.transpose_transpose] at h4

theorem trsm_mul_eq {F : Type} [Field F] {n m : ℕ}
    (A : Matrix (Fin n) (Fin n) F) (B : Matrix (Fin n) (Fin m) F)
    (alpha : F) (lower transpose : Bool) (hdiag : ∀ i, A i i ≠ 0) :
    opT transpose (triOf lower A) * linalg_trsm A B alpha lower transpose =
      alpha • B := by
  refine trisolveCols_correct _ _ _ (opT_triOf_orient lower transpose A) ?_
  intro i
  rw [opT_triOf_diag]
  exact hdiag i

theorem trsm_rightside_mul_eq {F : Type} [Field F] {n p : ℕ}
    (A : Matrix (Fin n) (Fin n) F) (B₂ : Matrix (Fin p) (Fin n) F)
    (alpha : F) (lower transpose : Bool) (hdiag : ∀ i, A i i ≠ 0) :
    linalg_trsm_rightside A B₂ alpha lower transpose *
      opT transpose (triOf lower A) = alpha • B₂ := by
  have hd : ∀ i, opT transpose (triOf lower A) i i ≠ 0 := by
    intro i
    rw [opT_triOf_diag]
    exact hdiag i
  have h2 := trisolveCols_correct (!(Bool.xor lower transpose))
    (opT transpose (triOf lower A))ᵀ (alpha • B₂ᵀ)
    (opT_triOf_orient_transpose lower transpose A) (fun i => hd i)
  have h3 := congrArg Matrix.transpose h2
  rw [Matrix.transpose_mul, Matrix.transpose_transpose, Matrix.transpose_smul,
    Matrix.transpose_transpose] at h3
  exact h3

/-- C6 counterexample: with alpha 2 (and the 1-by-1 triangular matrix 1),
applying `linalg_trsm` with the same flags and alpha to the output of
`linalg_trmm` does not recover the original operand: the round trip
scales it by alpha squared, here yielding 4 instead of 1. -/
theorem trsm_trmm_roundtrip_counterexample :
    linalg_trsm !![(1:ℚ)] (linalg_trmm !![(1:ℚ)] !![(1:ℚ)] 2 true false) 2
      true false ≠ !![(1:ℚ)] := by
  have hM : opT false (triOf true !![(1:ℚ)]) = 1 := by decide
  have h1 := trsm_mul_eq !![(1:ℚ)]
    (linalg_trmm !![(1:ℚ)] !![(1:ℚ)] 2 true false) 2 true false (by decide)
  rw [hM, Matrix.one_mul] at h1
  intro hcontra
  rw [hcontra, linalg_trmm, hM, Matrix.one_mul] at h1
  have h2 := congrFun (congrFun h1 0) 0
  simp [Matrix.smul_apply] at h2
  norm_num at h2

/-- C6 (amended): for every well-conditioned triangular square `A` (per
the flags) and compatible `X`, applying `linalg_trsm` with the same
flags and alpha to `linalg_trmm`'s output recovers alpha^2 times the
original `X` (hence exactly `X` when alpha is 1), on either side. -/
theorem trsm_trmm_roundtrip {F : Type} [Field F] {n m p : ℕ}
    (A : Matrix (Fin n) (Fin n) F) (X : Matrix (Fin n) (Fin m) F)
    (X₂ : Matrix (Fin p) (Fin n) F) (alpha : F) (lower transpose : Bool)
    (_htri : if lower then ∀ i j : Fin n, i < j → A i j = 0
            else ∀ i j : Fin n, j < i → A i j = 0)
    (hdiag : ∀ i, A i i ≠ 0) :
    linalg_trsm A (linalg_trmm A X alpha lower transpose) alpha lower
        transpose = (alpha ^ 2) • X ∧
    linalg_trsm_rightside A (linalg_trmm_rightside A X₂ alpha lower transpose)
        alpha lower transpose = (alpha ^ 2) • X₂ := by
  have hdet := opT_triOf_det_ne_zero lower transpose A hdiag
  constructor
  · have h1 := trsm_mul_eq A (linalg_trmm A X alpha lower transpose) alpha
      lower transpose hdiag
    refine mul_left_cancel_of_det_ne_zero hdet ?_
    rw [h1, linalg_trmm, Matrix.mul_smul, smul_smul, ← sq]
  · have h1 := trsm_rightside_mul_eq A
      (linalg_trmm_rightside A X₂ alpha lower transpose) alpha lower
      transpose hdiag
    refine mul_right_cancel_of_det_ne_zero hdet ?_
    rw [h1, linalg_trmm_rightside, Matrix.smul_mul, smul_smul, ← sq]

theorem trsm_trmm_roundtrip_witness :
    ((∀ i j : Fin 2, i < j → (!![(1:ℚ), 0; 2, 3]) i j = 0) ∧
      (∀ i : Fin 2, (!![(1:ℚ), 0; 2, 3]) i i ≠ 0)) ∧
    (linalg_trsm !![(1:ℚ), 0; 2, 3]
        (linalg_trmm !![(1:ℚ), 0; 2, 3] !![(5:ℚ); 7] 2 true false) 2 true
        false = ((2:ℚ) ^ 2) • !![(5:ℚ); 7] ∧
      linalg_trsm_rightside !![(1:ℚ), 0; 2, 3]
          (linalg_trmm_rightside !![(1:ℚ), 0; 2, 3] !![(5:ℚ), 7] 2 true false)
          2 true false = ((2:ℚ) ^ 2) • !![(5:ℚ), 7]) :=
  ⟨⟨by decide, by decide⟩,
    trsm_trmm_roundtrip !![(1:ℚ), 0; 2, 3] !![(5:ℚ); 7] !![(5:ℚ), 7] 2
      true false (by decide) (by decide)⟩

section Chol2

variable {ι : Type} [LinearOrder ι] [WellFoundedLT ι] [LocallyFiniteOrderBot ι]
variable {S : Matrix ι ι ℝ} [Fintype ι]

theorem LDL_diagEntries_pos (hS : S.PosDef) (i : ι) :
    0 < LDL.diagEntries hS i := by
  have hrow : LDL.lowerInv hS i ≠ 0 := by
    intro hzero
    have hdet : (LDL.lowerInv hS).det = 0 :=
      Matrix.det_eq_zero_of_row_eq_zero i fun j => congrFun hzero j
    exact (Matrix.isUnit_det_of_invertible (LDL.lowerInv hS)).ne_zero hdet
  have hx : star (LDL.lowerInv hS i) = LDL.lowerInv hS i :=
    funext fun j => star_trivial _
  have hq := hS.2 (LDL.lowerInv hS i) hrow
  rw [← hx] at hq
  have hEq : LDL.diagEntries hS i =
      Matrix.dotProduct (star (star (LDL.lowerInv hS i)))
        (S *ᵥ star (LDL.lowerInv hS i)) := by
    rw [LDL.diagEntries]
    exact EuclideanSpace.inner_piLp_equiv_symm _ _
  rw [hEq, star_star, ← hx]
  exact hq

theorem cholFactor_lowerTriangular (hS : S.PosDef) :
    ∀ i j : ι, i < j → cholFactor hS i j = 0 := by
  have hLi : (LDL.lowerInv hS).BlockTriangular OrderDual.toDual :=
    fun i j h => LDL.lowerInv_triangular hS h
  have hinv : ((LDL.lowerInv hS)⁻¹).BlockTriangular OrderDual.toDual :=
    Matrix.blockTriangular_inv_of_blockTriangular hLi
  have hC : (cholFactor hS).BlockTriangular OrderDual.toDual :=
    Matrix.BlockTriangular.mul hinv (Matrix.blockTriangular_diagonal _)
  intro i j hij
  exact hC (OrderDual.toDual_lt_toDual.mpr hij)

theorem cholFactor_mul_transpose (hS : S.PosDef) :
    cholFactor hS * (cholFactor hS)ᵀ = S := by
  have hsq : Matrix.diagonal (fun i => Real.sqrt (LDL.diagEntries hS i)) *
      Matrix.diagonal (fun i => Real.sqrt (LDL.diagEntries hS i)) =
      LDL.diag hS := by
    rw [Matrix.diagonal_mul_diagonal]
    have hentry : (fun i => Real.sqrt (LDL.diagEntries hS i) *
        Real.sqrt (LDL.diagEntries hS i)) = LDL.diagEntries hS :=
      funext fun i => Real.mul_self_sqrt (LDL_diagEntries_pos hS i).le
    rw [hentry, LDL.diag]
  have hconj : (LDL.lower hS)ᴴ = (LDL.lower hS)ᵀ :=
    Matrix.conjTranspose_eq_transpose_of_trivial _
  rw [cholFactor, Matrix.transpose_mul, Matrix.diagonal_transpose,
    Matrix.mul_assoc (LDL.lower hS), ← Matrix.mul_assoc (Matrix.diagonal _),
    ← Matrix.mul_assoc, hsq, ← hconj]
  exact LDL.lower_conj_diag hS

end Chol2

theorem cholFactorF_lowerTriangular {n : ℕ} {S : Matrix (Fin n) (Fin n) ℝ}
    (hS : S.PosDef) : ∀ i j : Fin n, i < j → cholFactorF hS i j = 0 :=
  @cholFactor_lowerTriangular (Fin n) (inferInstanceAs (LinearOrder (Fin n)))
    (inferInstanceAs (WellFoundedLT (Fin n)))
    (inferInstanceAs (LocallyFiniteOrderBot (Fin n))) S
    (inferInstanceAs (Fintype (Fin n))) hS

theorem cholFactorF_mul_transpose {n : ℕ} {S : Matrix (Fin n) (Fin n) ℝ}
    (hS : S.PosDef) : cholFactorF hS * (cholFactorF hS)ᵀ = S :=
  @cholFactor_mul_transpose (Fin n) (inferInstanceAs (LinearOrder (Fin n)))
    (inferInstanceAs (WellFoundedLT (Fin n)))
    (inferInstanceAs (LocallyFiniteOrderBot (Fin n))) S
    (inferInstanceAs (Fintype (Fin n))) hS

theorem linalg_potrf_potri_spec {n : ℕ} (S : Matrix (Fin n) (Fin n) ℝ)
    (hS : S.PosDef) :
    (∀ i j : Fin n, i < j → linalg_potrf S hS true i j = 0) ∧
    linalg_potrf S hS true * (linalg_potrf S hS true)ᵀ = S ∧
    linalg_potri (linalg_potrf S hS true) true = S⁻¹ := by
  have h1 : linalg_potrf S hS true = cholFactorF hS := rfl
  have h2 : linalg_potri (linalg_potrf S hS true) true =
      (linalg_potrf S hS true * (linalg_potrf S hS true)ᵀ)⁻¹ := rfl
  rw [h2, h1]
  exact ⟨cholFactorF_lowerTriangular hS, cholFactorF_mul_transpose hS,
    by rw [cholFactorF_mul_transpose hS]⟩

theorem linalg_potrf_potri_spec_witness :
    (1 : Matrix (Fin 1) (Fin 1) ℝ).PosDef ∧
    ((∀ i j : Fin 1, i < j → linalg_potrf (1 : Matrix (Fin 1) (Fin 1) ℝ) Matrix.PosDef.one true i j = 0) ∧
      linalg_potrf (1 : Matrix (Fin 1) (Fin 1) ℝ) Matrix.PosDef.one true *
        (linalg_potrf (1 : Matrix (Fin 1) (Fin 1) ℝ) Matrix.PosDef.one true)ᵀ = 1 ∧
      linalg_potri (linalg_potrf (1 : Matrix (Fin 1) (Fin 1) ℝ) Matrix.PosDef.one true) true =
        (1 : Matrix (Fin 1) (Fin 1) ℝ)⁻¹) :=
  ⟨Matrix.PosDef.one,
    linalg_potrf_potri_spec (1 : Matrix (Fin 1) (Fin 1) ℝ) Matrix.PosDef.one⟩

theorem neg_one_not_posDef : ¬ (!![(-1:ℝ)]).PosDef := by
  intro h
  have hx : (fun _ => (1:ℝ) : Fin 1 → ℝ) ≠ 0 := by
    intro h0
    have h1 := congrFun h0 0
    norm_num at h1
  have h2 := h.2 (fun _ => 1) hx
  simp [Matrix.dotProduct, Matrix.mulVec] at h2
  norm_num at h2

theorem linalg_potrf_failure_signal {N n : ℕ}
    (A : Fin N → Matrix (Fin n) (Fin n) ℝ) (lower : Bool)
    (S : Matrix (Fin n) (Fin n) ℝ) (hS : ¬ S.PosDef) (i j : Fin N)
    (hi : ¬ (A i).PosDef) (hj : (A j).PosDef) :
    linalg_potrf_checked S lower = none ∧
    linalg_batch_potrf_checked A lower i = none ∧
    (linalg_batch_potrf_checked A lower j).isSome = true := by
  refine ⟨dif_neg hS, ?_, ?_⟩
  · show linalg_potrf_checked (A i) lower = none
    exact dif_neg hi
  · show (linalg_potrf_checked (A j) lower).isSome = true
    rw [linalg_potrf_checked, dif_pos hj]
    rfl

theorem linalg_potrf_failure_signal_witness :
    (¬ (!![(-1:ℝ)]).PosDef) ∧
    (¬ ((![(1 : Matrix (Fin 1) (Fin 1) ℝ), !![(-1:ℝ)]]) 1).PosDef) ∧
    ((![(1 : Matrix (Fin 1) (Fin 1) ℝ), !![(-1:ℝ)]]) 0).PosDef ∧
    (linalg_potrf_checked !![(-1:ℝ)] true = none ∧
      linalg_batch_potrf_checked
        (![(1 : Matrix (Fin 1) (Fin 1) ℝ), !![(-1:ℝ)]]) true 1 = none ∧
      (linalg_batch_potrf_checked
        (![(1 : Matrix (Fin 1) (Fin 1) ℝ), !![(-1:ℝ)]]) true 0).isSome = true) :=
  ⟨neg_one_not_posDef, neg_one_not_posDef, Matrix.PosDef.one,
    linalg_potrf_failure_signal (![(1 : Matrix (Fin 1) (Fin 1) ℝ), !![(-1:ℝ)]])
      true !![(-1:ℝ)] neg_one_not_posDef 1 0 neg_one_not_posDef
      Matrix.PosDef.one⟩

/-- C3: for every batched operation (gemm, trsm, trmm, potrf, potri) on
rank-3 operands of equal batch size and every slice index `i`, the
contents of output slice `i` of the batched call equal the result of the
corresponding non-batched operation applied to slice `i` alone, the
outermost dimension being the batch index. -/
theorem batched_ops_slicewise {R : Type} [CommRing R] {F : Type} [Field F]
    {N m k n q p r : ℕ} (tA tB : Bool)
    (A : Fin N → Matrix (Fin (cond tA k m)) (Fin (cond tA m k)) R)
    (B : Fin N → Matrix (Fin (cond tB n k)) (Fin (cond tB k n)) R)
    (C : Fin N → Matrix (Fin m) (Fin n) R) (alpha beta : R)
    (At : Fin N → Matrix (Fin q) (Fin q) F)
    (Bt : Fin N → Matrix (Fin q) (Fin p) F)
    (Bt₂ : Fin N → Matrix (Fin p) (Fin q) F)
    (af : F) (lower transpose : Bool)
    (Ar : Fin N → Matrix (Fin r) (Fin r) ℝ) (lowerR : Bool) (i : Fin N) :
    linalg_batch_gemm tA tB A B C alpha beta i =
      linalg_gemm tA tB (A i) (B i) (C i) alpha beta ∧
    linalg_batch_trsm At Bt af lower transpose i =
      linalg_trsm (At i) (Bt i) af lower transpose ∧
    linalg_batch_trsm_rightside At Bt₂ af lower transpose i =
      linalg_trsm_rightside (At i) (Bt₂ i) af lower transpose ∧
    linalg_batch_trmm At Bt af lower transpose i =
      linalg_trmm (At i) (Bt i) af lower transpose ∧
    linalg_batch_trmm_rightside At Bt₂ af lower transpose i =
      linalg_trmm_rightside (At i) (Bt₂ i) af lower transpose ∧
    linalg_batch_potrf_checked Ar lowerR i =
      linalg_potrf_checked (Ar i) lowerR ∧
    linalg_batch_potri Ar lowerR i = linalg_potri (Ar i) lowerR :=
  ⟨rfl, rfl, rfl, rfl, rfl, rfl, rfl⟩
